import Mathlib

/-!
Verification of the Zulu morphological analyzer (`ZuluMorphAnalyzer` in
`src/server.js`).  Words are modelled as lists of characters; the JavaScript
object literals holding the rule tables are modelled as ordered association
lists built with JavaScript literal semantics (a duplicate key keeps its first
position but takes the last assigned value; `for ... in` iterates string keys
in insertion order).  The `while` stripping loop of `analyzeWord` is modelled
with structural fuel (`analyzeLoopFuel`), instantiated at the length of the
word, which is proved sufficient.
-/

namespace ZuluMorph

/-- A word, or part of a word, as a list of characters. -/
abbrev Str := List Char

/-- A surface substring together with its grammatical tag
(`{ morph, tag }` objects pushed by `analyzeWord`). -/
structure Morpheme where
  morph : Str
  tag : String
deriving DecidableEq

/-- JavaScript object-literal insertion: assigning to an existing key keeps
its original position but replaces the value; a fresh key is appended. -/
def jsObjectInsert {α : Type} (l : List (Str × α)) (k : Str) (v : α) : List (Str × α) :=
  if l.any (fun p => p.1 == k) then
    l.map (fun p => if p.1 == k then (p.1, v) else p)
  else
    l ++ [(k, v)]

/-- The ordered association list denoted by a JavaScript object literal with
the given (possibly duplicated) keys, in source order. -/
def jsObjectOfEntries {α : Type} (entries : List (Str × α)) : List (Str × α) :=
  entries.foldl (fun acc e => jsObjectInsert acc e.1 e.2) []

/-- The noun-class table exactly as written in `this.nounPrefixes`
(note the duplicated key text `umu`, first with class 1, then class 3). -/
def nounPrefixesDecl : List (Str × Nat × String) :=
  [ ("umu".data, 1, "NPrePre1"),
    ("aba".data, 2, "NPrePre2"),
    ("umu".data, 3, "NPrePre3"),
    ("imi".data, 4, "NPrePre4"),
    ("ili".data, 5, "NPrePre5"),
    ("ama".data, 6, "NPrePre6"),
    ("isi".data, 7, "NPrePre7"),
    ("izi".data, 8, "NPrePre8"),
    ("in".data, 9, "NPrePre9"),
    ("izin".data, 10, "NPrePre10"),
    ("ulu".data, 11, "NPrePre11"),
    ("ubu".data, 14, "NPrePre14"),
    ("uku".data, 15, "NPrePre15") ]

/-- The effective `this.nounPrefixes` object (JavaScript literal semantics). -/
def nounPrefixes : List (Str × Nat × String) :=
  jsObjectOfEntries nounPrefixesDecl

/-- `this.verbExtensions`, in declaration order. -/
def verbExtensionsDecl : List (Str × String) :=
  [ ("el".data, "ApplExt"),
    ("an".data, "RecExt"),
    ("akal".data, "NeutExt"),
    ("is".data, "CausExt"),
    ("w".data, "PassExt") ]

/-- The effective `this.verbExtensions` object. -/
def verbExtensions : List (Str × String) :=
  jsObjectOfEntries verbExtensionsDecl

/-- `this.commonMorphemes`, in declaration order. -/
def commonMorphemesDecl : List (Str × String) :=
  [ ("nga".data, "AdvPre"),
    ("ka".data, "AdvPre"),
    ("na".data, "AdvPre"),
    ("ku".data, "LocPre"),
    ("e".data, "LocPre"),
    ("s".data, "PreLoc-s"),
    ("wa".data, "PossConc3"),
    ("ya".data, "PossConc4"),
    ("za".data, "PossConc10"),
    ("kwa".data, "PossConc15"),
    ("ng".data, "CopPre"),
    ("o".data, "RelConc3"),
    ("ezi".data, "RelConc10"),
    ("eli".data, "RelConc5"),
    ("aba".data, "RelConc2") ]

/-- The effective `this.commonMorphemes` object. -/
def commonMorphemes : List (Str × String) :=
  jsObjectOfEntries commonMorphemesDecl

/-- `this.quantifiers`, in declaration order. -/
def quantifiersDecl : List (Str × String) :=
  [ ("dwa".data, "QuantStem"),
    ("nye".data, "AdjStem"),
    ("bili".data, "AdjStem") ]

/-- The effective `this.quantifiers` object. -/
def quantifiers : List (Str × String) :=
  jsObjectOfEntries quantifiersDecl

/-- `this.vocabulary`, keys stored exactly as declared (two keys carry an
upper-case initial letter). -/
def vocabularyDecl : List (Str × String) :=
  [ ("jongo".data, "NStem"),
    ("konzo".data, "NStem"),
    ("website".data, "Foreign"),
    ("Ningizimu".data, "ProperName"),
    ("Afrika".data, "ProperName"),
    ("thol".data, "VRoot"),
    ("thombo".data, "NStem"),
    ("azi".data, "NStem"),
    ("hulumeni".data, "NStem"),
    ("phungul".data, "VRoot"),
    ("gebe".data, "NStem"),
    ("khona".data, "Adv"),
    ("phakathi".data, "Adv"),
    ("ndla".data, "NStem"),
    ("notho".data, "NStem"),
    ("khakha".data, "NStem"),
    ("qal".data, "VRoot") ]

/-- The effective `this.vocabulary` object. -/
def vocabulary : List (Str × String) :=
  jsObjectOfEntries vocabularyDecl

/-- The table inside `getNounBasicPrefix` (integer keys, exact lookup). -/
def basicPrefixes : List (Nat × Str) :=
  [ (1, "mu".data), (2, "ba".data), (3, "mu".data), (4, "mi".data),
    (5, "li".data), (6, "ma".data), (7, "si".data), (8, "zi".data),
    (9, "n".data), (10, "zin".data), (11, "lu".data), (14, "bu".data),
    (15, "ku".data) ]

/-- `getNounBasicPrefix(nounClass)`: exact lookup, `undefined` (`none`) when
the class is absent. -/
def getNounBasicPrefix (nounClass : Nat) : Option Str :=
  (basicPrefixes.find? (fun e => e.1 == nounClass)).map (fun e => e.2)

/-- First noun-class entry whose pattern text starts the cursor
(`for (let p in this.nounPrefixes) if (remaining.startsWith(p))`). -/
def findNounPre (remaining : Str) : Option (Str × Nat × String) :=
  nounPrefixes.find? (fun e => e.1.isPrefixOf remaining)

/-- First common-morpheme entry whose pattern text starts the cursor. -/
def findCommonMorph (remaining : Str) : Option (Str × String) :=
  commonMorphemes.find? (fun e => e.1.isPrefixOf remaining)

/-- Index of the first occurrence of `pat` in a string
(JavaScript `indexOf`; `none` for `-1`). -/
def firstIndexOf (pat : Str) : Str → Option Nat
  | [] => if pat.isPrefixOf ([] : Str) then some 0 else none
  | c :: rest =>
    if pat.isPrefixOf (c :: rest) then some 0
    else (firstIndexOf pat rest).map (fun i => i + 1)

/-- The verb-extension scan: first entry (declaration order) whose first
occurrence in the cursor sits at a strictly positive index, together with
that index (`remaining.includes(ext)` then `indexOf` then `index > 0`;
an extension found only at index 0 does not stop the scan). -/
def findVerbExt (remaining : Str) : List (Str × String) → Option (Nat × Str × String)
  | [] => none
  | e :: rest =>
    match firstIndexOf e.1 remaining with
    | some i => if 0 < i then some (i, e.1, e.2) else findVerbExt remaining rest
    | none => findVerbExt remaining rest

/-- First quantifier entry equal to the whole cursor (`remaining === quant`). -/
def findQuant (remaining : Str) : Option (Str × String) :=
  quantifiers.find? (fun e => remaining == e.1)

/-- The own-property part of `this.vocabulary[remaining]`: the value of the
declared entry whose key exactly equals the (already lowercased) query.
The prototype-chain fallback of the JavaScript bracket read is modelled by
`vocabTruthy` and `protoPropTag` below. -/
def vocabLookup (w : Str) : Option String :=
  (vocabulary.find? (fun e => e.1 == w)).map (fun e => e.2)

/-- The property names of `Object.prototype` (ECMA-262 §20.1.3 plus the
Annex-B accessor pairs and `__proto__`), every one of which holds a truthy
value (a built-in function, or the prototype object itself for `__proto__`).
A bracket read on a plain object literal that misses the own keys falls
back to these. -/
def objectProtoKeys : List Str :=
  [ "constructor".data, "hasOwnProperty".data, "isPrototypeOf".data,
    "propertyIsEnumerable".data, "toLocaleString".data, "toString".data,
    "valueOf".data, "__defineGetter__".data, "__defineSetter__".data,
    "__lookupGetter__".data, "__lookupSetter__".data, "__proto__".data ]

/-- Truthiness of `this.vocabulary[remaining]`: an own key hits its value (a
nonempty string, hence truthy); otherwise the read falls through the
prototype chain and is truthy exactly on the `Object.prototype` member
names. -/
def vocabTruthy (w : Str) : Bool :=
  (vocabulary.find? (fun e => e.1 == w)).isSome || objectProtoKeys.contains w

/-- The `tag` pushed when the vocabulary test hits an inherited
`Object.prototype` member: the looked-up value is a built-in function (or
the prototype object), not a string; its text rendering is engine-specific
and no property proved here depends on it, so the value is represented by
the bracketed property name. -/
def protoPropTag (name : Str) : String :=
  String.mk ('[' :: (name ++ "]".data))

/-- The punctuation characters of the `/^[.,!?;:]$/` test. -/
def punctChars : List Char := ['.', ',', '!', '?', ';', ':']

/-- Does the raw word consist of exactly one punctuation character? -/
def isPunct (w : Str) : Bool :=
  match w with
  | [c] => punctChars.contains c
  | _ => false

/-- Does the raw word start with an ASCII capital letter (`/^[A-Z]/`)? -/
def startsWithUpper (w : Str) : Bool :=
  match w with
  | c :: _ => decide ('A' ≤ c) && decide (c ≤ 'Z')
  | [] => false

/-- `word.toLowerCase()` (character-wise, as for ASCII input). -/
def lowerStr (w : Str) : Str := w.map Char.toLower

/-- The morphemes pushed when a noun-class entry `e` matches: the first
character of the pattern text with the class type, then, when the pattern is
longer than one character and the class has a basic form, that basic form
tagged `BPre` plus the class number. -/
def nounPreEmit (e : Str × Nat × String) : List Morpheme :=
  ⟨e.1.take 1, e.2.2⟩ ::
    (if 1 < e.1.length then
      match getNounBasicPrefix e.2.1 with
      | some bp => [⟨bp, "BPre" ++ toString e.2.1⟩]
      | none => []
    else [])

/-- One run of the `while (remaining.length > 0)` stripping loop, with
structural fuel; returns the emitted morphemes and the number of loop
iterations performed.  The fuel branch is never reached when the fuel is at
least the cursor length (see `analyzeLoopFuel_congr`). -/
def analyzeLoopFuel : Nat → Str → List Morpheme × Nat
  | _, [] => ([], 0)
  | 0, _ :: _ => ([], 0)
  | fuel + 1, c :: rest =>
    let remaining : Str := c :: rest
    match findNounPre remaining with
    | some e =>
      let res := analyzeLoopFuel fuel (remaining.drop e.1.length)
      (nounPreEmit e ++ res.1, res.2 + 1)
    | none =>
      match findCommonMorph remaining with
      | some e =>
        let res := analyzeLoopFuel fuel (remaining.drop e.1.length)
        (⟨e.1, e.2⟩ :: res.1, res.2 + 1)
      | none =>
        match findVerbExt remaining verbExtensions with
        | some (i, ext, tg) =>
          let res := analyzeLoopFuel fuel (remaining.drop (i + ext.length))
          (⟨remaining.take i, "VRoot"⟩ :: ⟨ext, tg⟩ :: res.1, res.2 + 1)
        | none =>
          if remaining.getLast? = some 'a' ∧ 1 < remaining.length
              ∧ 0 < remaining.length - 1 then
            ([⟨remaining.take (remaining.length - 1), "VRoot"⟩,
              ⟨['a'], "VerbTerm"⟩], 1)
          else
            match findQuant remaining with
            | some e => ([⟨remaining, e.2⟩], 1)
            | none => ([⟨remaining, "NStem"⟩], 1)

/-- The stripping loop of `analyzeWord`, run on a cursor. -/
def analyzeLoop (remaining : Str) : List Morpheme × Nat :=
  analyzeLoopFuel remaining.length remaining

/-- `analyzeWord(word)`: punctuation, vocabulary and proper-name fast paths,
then the stripping loop, then the `Unknown` fallback for an empty result.
The vocabulary test `if (this.vocabulary[remaining])` is a truthiness test
on a bracket read, so it also fires on the inherited `Object.prototype`
member names; the pushed tag is the read value (the declared string for an
own key, the inherited non-string value otherwise). -/
def analyzeWord (word : Str) : List Morpheme :=
  let originalWord := word
  let remaining := lowerStr word
  if isPunct word then [⟨word, "Punc"⟩]
  else if vocabTruthy remaining then
    [⟨remaining, match vocabLookup remaining with
                 | some tg => tg
                 | none => protoPropTag remaining⟩]
  else if startsWithUpper originalWord ∧ 2 < originalWord.length then
    [⟨originalWord, "ProperName"⟩]
  else
    let morphemes := (analyzeLoop remaining).1
    if morphemes.isEmpty then [⟨originalWord, "Unknown"⟩] else morphemes

/-- `formatMorphAnalysis(word, morphemes)`: `morph[TAG]` segments joined
with `-` (the `word` argument is accepted and ignored, as in the source). -/
def formatMorphAnalysis (word : Str) (morphemes : List Morpheme) : Str :=
  List.intercalate ['-']
    (morphemes.map (fun m => m.morph ++ ('[' :: m.tag.data ++ [']'])))

/-- `text.split(sep)` for a single-character separator. -/
def splitOnChar (sep : Char) : Str → List Str
  | [] => [[]]
  | c :: rest =>
    if c = sep then [] :: splitOnChar sep rest
    else
      match splitOnChar sep rest with
      | [] => [[c]]
      | s :: ss => (c :: s) :: ss

/-- The characters matched by `\s` and removed by `trim` (ASCII range). -/
def isSpaceChar (c : Char) : Bool :=
  c = ' ' || c = '\t' || c = '\x0a' || c = '\x0d' || c = '\x0b' || c = '\x0c'

/-- `line.trim()`: strip leading and trailing whitespace. -/
def trimStr (s : Str) : Str :=
  ((s.dropWhile isSpaceChar).reverse.dropWhile isSpaceChar).reverse

/-- Accumulator worker for `wordsOf`. -/
def wordsOfAux : Str → Str → List Str
  | [], acc => if acc.isEmpty then [] else [acc.reverse]
  | c :: rest, acc =>
    if isSpaceChar c then
      (if acc.isEmpty then [] else [acc.reverse]) ++ wordsOfAux rest []
    else
      wordsOfAux rest (c :: acc)

/-- The maximal runs of non-whitespace characters of a string, in order
(`split(/\s+/)` restricted to strings without leading or trailing
whitespace, which is how the source applies it: after `trim`). -/
def wordsOf (s : Str) : List Str := wordsOfAux s []

/-- `analyzeText(text)`: split on newline, keep the lines with non-blank
trim, number the kept lines from 1, analyze and format each word, render
each line as `<LINE n>` followed by the space-joined word strings, and join
the rendered lines with newline. -/
def analyzeText (text : Str) : Str :=
  let lines := (splitOnChar '\x0a' text).filter (fun line => !(trimStr line).isEmpty)
  let results := lines.enum.map (fun p =>
    let lineNumber := p.1 + 1
    let words := wordsOf (trimStr p.2)
    let analyzedWords := words.map (fun w => formatMorphAnalysis w (analyzeWord w))
    ("<LINE ".data ++ (toString lineNumber).data ++ ">".data)
      ++ List.intercalate [' '] analyzedWords)
  List.intercalate ['\x0a'] results

/-- Rendering of one kept line with its 1-based number, as §4.5 of the spec
describes it: `<LINE n>` with no space, then the space-joined word strings. -/
def renderLine (n : Nat) (line : Str) : Str :=
  ("<LINE ".data ++ (toString n).data ++ ">".data)
    ++ List.intercalate [' ']
        ((wordsOf line).map (fun w => formatMorphAnalysis w (analyzeWord w)))

/-- Consecutive numbering of the kept lines, starting at `n`. -/
def numberLines : Nat → List Str → List Str
  | _, [] => []
  | n, line :: rest => renderLine n line :: numberLines (n + 1) rest

/-- The LineAnalyzer as §4.4 of the spec words it: split on newline, discard
lines that are empty or whitespace-only, give the kept lines consecutive
1-based numbers, split each kept line on runs of whitespace, and join the
rendered lines with newline.  Stated per the spec for comparison with
`analyzeText`, which is translated from the source. -/
def analyzeTextSpec (text : Str) : Str :=
  let kept := (splitOnChar '\x0a' text).filter (fun line => !(line.all isSpaceChar))
  List.intercalate ['\x0a'] (numberLines 1 kept)

/-- A sequence of calls to `analyzeWord` against the shared rule tables,
one per listed word, in order. -/
def callResults : List Str → List (List Morpheme)
  | [] => []
  | w :: ws => analyzeWord w :: callResults ws

/-! Facts about the concrete rule tables, all checked by evaluation. -/

lemma nounPrefixes_facts : ∀ e ∈ nounPrefixes,
    e.1 ≠ [] ∧ e.2.2 ≠ "NPrePre1" ∧ ("BPre" ++ toString e.2.1) ≠ "NPrePre1"
      ∧ (getNounBasicPrefix e.2.1).isSome = true := by decide

lemma commonMorphemes_facts : ∀ e ∈ commonMorphemes,
    e.1 ≠ [] ∧ e.2 ≠ "NPrePre1" := by decide

lemma verbExtensions_facts : ∀ e ∈ verbExtensions,
    e.1 ≠ [] ∧ e.2 ≠ "NPrePre1" := by decide

lemma quantifiers_facts : ∀ e ∈ quantifiers, e.2 ≠ "NPrePre1" := by decide

lemma vocabulary_facts : ∀ e ∈ vocabulary, e.2 ≠ "NPrePre1" := by decide

lemma basicPrefixes_facts : ∀ p ∈ basicPrefixes, p.2 ≠ [] := by decide

lemma getNounBasicPrefix_ne_nil (n : Nat) (bp : Str)
    (h : getNounBasicPrefix n = some bp) : bp ≠ [] := by
  unfold getNounBasicPrefix at h
  cases hf : basicPrefixes.find? (fun e => e.1 == n) with
  | none => rw [hf] at h; exact Option.noConfusion h
  | some p =>
    rw [hf] at h
    simp only [Option.map_some'] at h
    obtain rfl : p.2 = bp := Option.some.inj h
    exact basicPrefixes_facts p (List.mem_of_find?_eq_some hf)

lemma findNounPre_mem {rem : Str} {e : Str × Nat × String}
    (h : findNounPre rem = some e) : e ∈ nounPrefixes :=
  List.mem_of_find?_eq_some h

lemma findCommonMorph_mem {rem : Str} {e : Str × String}
    (h : findCommonMorph rem = some e) : e ∈ commonMorphemes :=
  List.mem_of_find?_eq_some h

lemma findNounPre_nil : findNounPre ([] : Str) = none := by decide

lemma findCommonMorph_nil : findCommonMorph ([] : Str) = none := by decide

/-! Characterization of the verb-extension scan. -/

lemma findVerbExt_spec : ∀ (l : List (Str × String)) (rem : Str) (i : Nat)
    (p : Str) (t : String), findVerbExt rem l = some (i, p, t) →
    ∃ pre suf, l = pre ++ (p, t) :: suf
      ∧ (∀ e ∈ pre, ∀ j, firstIndexOf e.1 rem = some j → j = 0)
      ∧ firstIndexOf p rem = some i ∧ 0 < i := by
  intro l
  induction l with
  | nil => intro rem i p t h; exact Option.noConfusion h
  | cons e rest ih =>
    intro rem i p t h
    rw [findVerbExt] at h
    cases he : firstIndexOf e.1 rem with
    | none =>
      simp only [he] at h
      obtain ⟨pre, suf, h1, h2, h3, h4⟩ := ih rem i p t h
      refine ⟨e :: pre, suf, by rw [h1, List.cons_append], ?_, h3, h4⟩
      intro x hx j hj
      rcases List.mem_cons.mp hx with rfl | hx
      · rw [he] at hj; exact Option.noConfusion hj
      · exact h2 x hx j hj
    | some k =>
      simp only [he] at h
      by_cases hk : 0 < k
      · rw [if_pos hk] at h
        simp only [Option.some.injEq, Prod.mk.injEq] at h
        obtain ⟨rfl, rfl, rfl⟩ := h
        exact ⟨[], rest, by simp, by simp, he, hk⟩
      · rw [if_neg hk] at h
        obtain ⟨pre, suf, h1, h2, h3, h4⟩ := ih rem i p t h
        refine ⟨e :: pre, suf, by rw [h1, List.cons_append], ?_, h3, h4⟩
        intro x hx j hj
        rcases List.mem_cons.mp hx with rfl | hx
        · rw [he] at hj
          obtain rfl : k = j := Option.some.inj hj
          omega
        · exact h2 x hx j hj

lemma findVerbExt_total : ∀ (l : List (Str × String)) (rem : Str),
    findVerbExt rem l = none →
    ∀ e ∈ l, ∀ j, firstIndexOf e.1 rem = some j → j = 0 := by
  intro l
  induction l with
  | nil => intro rem _ e he; exact absurd he (List.not_mem_nil e)
  | cons e rest ih =>
    intro rem h x hx j hj
    rw [findVerbExt] at h
    rcases List.mem_cons.mp hx with rfl | hx
    · rw [hj] at h
      simp only at h
      by_cases hk : 0 < j
      · rw [if_pos hk] at h; exact Option.noConfusion h
      · omega
    · cases he : firstIndexOf e.1 rem with
      | none => simp only [he] at h; exact ih rem h x hx j hj
      | some k =>
        simp only [he] at h
        by_cases hk : 0 < k
        · rw [if_pos hk] at h; exact Option.noConfusion h
        · rw [if_neg hk] at h; exact ih rem h x hx j hj

lemma firstIndexOf_nil_eq_zero (pat : Str) (i : Nat)
    (h : firstIndexOf pat [] = some i) : i = 0 := by
  rw [firstIndexOf] at h
  by_cases hp : pat.isPrefixOf ([] : Str)
  · rw [if_pos hp] at h; exact (Option.some.inj h).symm
  · rw [if_neg hp] at h; exact Option.noConfusion h

/-! Fuel adequacy for the stripping loop. -/

lemma analyzeLoopFuel_nil (f : Nat) : analyzeLoopFuel f [] = ([], 0) := by
  cases f <;> rfl

lemma analyzeLoopFuel_congr : ∀ (f₁ : Nat) (rem : Str) (f₂ : Nat),
    rem.length ≤ f₁ → rem.length ≤ f₂ →
    analyzeLoopFuel f₁ rem = analyzeLoopFuel f₂ rem := by
  intro f₁
  induction f₁ with
  | zero =>
    intro rem f₂ h1 _
    obtain rfl : rem = [] := List.eq_nil_of_length_eq_zero (Nat.le_zero.mp h1)
    rw [analyzeLoopFuel_nil, analyzeLoopFuel_nil]
  | succ k ih =>
    intro rem f₂ h1 h2
    cases rem with
    | nil => rw [analyzeLoopFuel_nil, analyzeLoopFuel_nil]
    | cons c rest =>
      cases f₂ with
      | zero => simp at h2
      | succ k₂ =>
        simp only [analyzeLoopFuel]
        cases hn : findNounPre (c :: rest) with
        | some e =>
          simp only [hn]
          have hpos : 0 < e.1.length :=
            List.length_pos.mpr (nounPrefixes_facts e (findNounPre_mem hn)).1
          have hd : ((c :: rest).drop e.1.length).length ≤ k ∧
              ((c :: rest).drop e.1.length).length ≤ k₂ := by
            simp only [List.length_drop, List.length_cons] at *
            omega
          rw [ih _ k₂ hd.1 hd.2]
        | none =>
          simp only [hn]
          cases hc : findCommonMorph (c :: rest) with
          | some e =>
            simp only [hc]
            have hpos : 0 < e.1.length :=
              List.length_pos.mpr (commonMorphemes_facts e (findCommonMorph_mem hc)).1
            have hd : ((c :: rest).drop e.1.length).length ≤ k ∧
                ((c :: rest).drop e.1.length).length ≤ k₂ := by
              simp only [List.length_drop, List.length_cons] at *
              omega
            rw [ih _ k₂ hd.1 hd.2]
          | none =>
            simp only [hc]
            cases hv : findVerbExt (c :: rest) verbExtensions with
            | some v =>
              obtain ⟨i, ext, tg⟩ := v
              simp only [hv]
              obtain ⟨-, -, -, -, -, hi⟩ := findVerbExt_spec _ _ _ _ _ hv
              have hd : ((c :: rest).drop (i + ext.length)).length ≤ k ∧
                  ((c :: rest).drop (i + ext.length)).length ≤ k₂ := by
                simp only [List.length_drop, List.length_cons] at *
                omega
              rw [ih _ k₂ hd.1 hd.2]
            | none => simp only [hv]

/-! One-step unfolding of the loop at each rule category. -/

lemma analyzeLoop_noun {rem : Str} {e : Str × Nat × String}
    (h : findNounPre rem = some e) :
    analyzeLoop rem = (nounPreEmit e ++ (analyzeLoop (rem.drop e.1.length)).1,
                       (analyzeLoop (rem.drop e.1.length)).2 + 1) := by
  cases rem with
  | nil => rw [findNounPre_nil] at h; exact Option.noConfusion h
  | cons c rest =>
    have hpos : 0 < e.1.length :=
      List.length_pos.mpr (nounPrefixes_facts e (findNounPre_mem h)).1
    unfold analyzeLoop
    simp only [List.length_cons, analyzeLoopFuel, h]
    have hlen : ((c :: rest).drop e.1.length).length ≤ rest.length := by
      simp only [List.length_drop, List.length_cons]
      omega
    rw [analyzeLoopFuel_congr rest.length _ (((c :: rest).drop e.1.length).length)
      hlen le_rfl]

lemma analyzeLoop_common {rem : Str} {e : Str × String}
    (hn : findNounPre rem = none) (h : findCommonMorph rem = some e) :
    analyzeLoop rem = (⟨e.1, e.2⟩ :: (analyzeLoop (rem.drop e.1.length)).1,
                       (analyzeLoop (rem.drop e.1.length)).2 + 1) := by
  cases rem with
  | nil => rw [findCommonMorph_nil] at h; exact Option.noConfusion h
  | cons c rest =>
    have hpos : 0 < e.1.length :=
      List.length_pos.mpr (commonMorphemes_facts e (findCommonMorph_mem h)).1
    unfold analyzeLoop
    simp only [List.length_cons, analyzeLoopFuel, hn, h]
    have hlen : ((c :: rest).drop e.1.length).length ≤ rest.length := by
      simp only [List.length_drop, List.length_cons]
      omega
    rw [analyzeLoopFuel_congr rest.length _ (((c :: rest).drop e.1.length).length)
      hlen le_rfl]

lemma analyzeLoop_verbext {rem : Str} {i : Nat} {ext : Str} {tg : String}
    (hn : findNounPre rem = none) (hc : findCommonMorph rem = none)
    (h : findVerbExt rem verbExtensions = some (i, ext, tg)) :
    analyzeLoop rem = (⟨rem.take i, "VRoot"⟩ :: ⟨ext, tg⟩ ::
                         (analyzeLoop (rem.drop (i + ext.length))).1,
                       (analyzeLoop (rem.drop (i + ext.length))).2 + 1) := by
  obtain ⟨-, -, -, -, hfi, hi⟩ := findVerbExt_spec _ _ _ _ _ h
  cases rem with
  | nil => exact absurd (firstIndexOf_nil_eq_zero _ _ hfi) (by omega)
  | cons c rest =>
    unfold analyzeLoop
    simp only [List.length_cons, analyzeLoopFuel, hn, hc, h]
    have hlen : ((c :: rest).drop (i + ext.length)).length ≤ rest.length := by
      simp only [List.length_drop, List.length_cons]
      omega
    rw [analyzeLoopFuel_congr rest.length _ (((c :: rest).drop (i + ext.length)).length)
      hlen le_rfl]

lemma findVerbExt_mem {rem : Str} {i : Nat} {p : Str} {t : String}
    (h : findVerbExt rem verbExtensions = some (i, p, t)) : (p, t) ∈ verbExtensions := by
  obtain ⟨pre, suf, h1, -, -, -⟩ := findVerbExt_spec _ _ _ _ _ h
  rw [h1]
  exact List.mem_append.mpr (Or.inr (List.mem_cons_self _ _))

lemma findVerbExt_pos {rem : Str} {i : Nat} {p : Str} {t : String}
    (h : findVerbExt rem verbExtensions = some (i, p, t)) : 0 < i :=
  (findVerbExt_spec _ _ _ _ _ h).choose_spec.choose_spec.2.2.2

/-! The iteration count of the loop is bounded by the cursor length. -/

lemma analyzeLoopFuel_count_le : ∀ (fuel : Nat) (rem : Str), rem.length ≤ fuel →
    (analyzeLoopFuel fuel rem).2 ≤ rem.length := by
  intro fuel
  induction fuel with
  | zero =>
    intro rem h
    obtain rfl : rem = [] := List.eq_nil_of_length_eq_zero (Nat.le_zero.mp h)
    simp [analyzeLoopFuel_nil]
  | succ k ih =>
    intro rem h
    cases rem with
    | nil => simp [analyzeLoopFuel_nil]
    | cons c rest =>
      simp only [analyzeLoopFuel]
      cases hn : findNounPre (c :: rest) with
      | some e =>
        simp only [hn]
        have hpos : 0 < e.1.length :=
          List.length_pos.mpr (nounPrefixes_facts e (findNounPre_mem hn)).1
        have hle : ((c :: rest).drop e.1.length).length ≤ k := by
          simp only [List.length_drop, List.length_cons] at *
          omega
        have := ih _ hle
        simp only [List.length_drop, List.length_cons] at this ⊢
        omega
      | none =>
        simp only [hn]
        cases hc : findCommonMorph (c :: rest) with
        | some e =>
          simp only [hc]
          have hpos : 0 < e.1.length :=
            List.length_pos.mpr (commonMorphemes_facts e (findCommonMorph_mem hc)).1
          have hle : ((c :: rest).drop e.1.length).length ≤ k := by
            simp only [List.length_drop, List.length_cons] at *
            omega
          have := ih _ hle
          simp only [List.length_drop, List.length_cons] at this ⊢
          omega
        | none =>
          simp only [hc]
          cases hv : findVerbExt (c :: rest) verbExtensions with
          | some v =>
            obtain ⟨i, ext, tg⟩ := v
            simp only [hv]
            have hi : 0 < i := findVerbExt_pos hv
            have hle : ((c :: rest).drop (i + ext.length)).length ≤ k := by
              simp only [List.length_drop, List.length_cons] at *
              omega
            have := ih _ hle
            simp only [List.length_drop, List.length_cons] at this ⊢
            omega
          | none =>
            simp only [hv]
            split
            · simp
            · cases hq : findQuant (c :: rest) with
              | some e => simp
              | none => simp

/-! No morpheme emitted by the loop has an empty surface string, and the
shadowed class-1 tag is never emitted. -/

lemma analyzeLoopFuel_inv : ∀ (fuel : Nat) (rem : Str) (m : Morpheme),
    m ∈ (analyzeLoopFuel fuel rem).1 → m.morph ≠ [] ∧ m.tag ≠ "NPrePre1" := by
  intro fuel
  induction fuel with
  | zero =>
    intro rem m hm
    cases rem with
    | nil => rw [analyzeLoopFuel_nil] at hm; simp at hm
    | cons c rest => simp [analyzeLoopFuel] at hm
  | succ k ih =>
    intro rem m hm
    cases rem with
    | nil => rw [analyzeLoopFuel_nil] at hm; simp at hm
    | cons c rest =>
      simp only [analyzeLoopFuel] at hm
      cases hn : findNounPre (c :: rest) with
      | some e =>
        simp only [hn] at hm
        obtain ⟨hne, htag, hbtag, -⟩ := nounPrefixes_facts e (findNounPre_mem hn)
        rcases List.mem_append.mp hm with hm | hm
        · rw [nounPreEmit] at hm
          rcases List.mem_cons.mp hm with rfl | hm
          · refine ⟨?_, htag⟩
            cases he1 : e.1 with
            | nil => exact absurd he1 hne
            | cons a as => simp [he1]
          · by_cases hl : 1 < e.1.length
            · rw [if_pos hl] at hm
              cases hb : getNounBasicPrefix e.2.1 with
              | none => rw [hb] at hm; simp at hm
              | some bp =>
                rw [hb] at hm
                simp only [List.mem_singleton] at hm
                subst hm
                exact ⟨getNounBasicPrefix_ne_nil _ _ hb, hbtag⟩
            · rw [if_neg hl] at hm; simp at hm
        · exact ih _ m hm
      | none =>
        simp only [hn] at hm
        cases hc : findCommonMorph (c :: rest) with
        | some e =>
          simp only [hc] at hm
          obtain ⟨hne, htag⟩ := commonMorphemes_facts e (findCommonMorph_mem hc)
          rcases List.mem_cons.mp hm with rfl | hm
          · exact ⟨hne, htag⟩
          · exact ih _ m hm
        | none =>
          simp only [hc] at hm
          cases hv : findVerbExt (c :: rest) verbExtensions with
          | some v =>
            obtain ⟨i, ext, tg⟩ := v
            simp only [hv] at hm
            have hi : 0 < i := findVerbExt_pos hv
            obtain ⟨hene, hetag⟩ := verbExtensions_facts _ (findVerbExt_mem hv)
            rcases List.mem_cons.mp hm with rfl | hm
            · refine ⟨?_, (by decide : ("VRoot" : String) ≠ "NPrePre1")⟩
              obtain ⟨i', rfl⟩ : ∃ i', i = i' + 1 :=
                ⟨i - 1, by omega⟩
              simp [List.take_succ_cons]
            · rcases List.mem_cons.mp hm with rfl | hm
              · exact ⟨hene, hetag⟩
              · exact ih _ m hm
          | none =>
            simp only [hv] at hm
            by_cases hterm : (c :: rest).getLast? = some 'a'
                ∧ 1 < (c :: rest).length ∧ 0 < (c :: rest).length - 1
            · rw [if_pos hterm] at hm
              rcases List.mem_cons.mp hm with rfl | hm
              · refine ⟨?_, (by decide : ("VRoot" : String) ≠ "NPrePre1")⟩
                have h1 : 1 < rest.length + 1 := by
                  simpa using hterm.2.1
                obtain ⟨n, hn'⟩ : ∃ n, rest.length = n + 1 :=
                  ⟨rest.length - 1, by omega⟩
                simp [hn', List.take_succ_cons]
              · rcases List.mem_cons.mp hm with rfl | hm
                · exact ⟨by simp, (by decide : ("VerbTerm" : String) ≠ "NPrePre1")⟩
                · simp at hm
            · rw [if_neg hterm] at hm
              cases hq : findQuant (c :: rest) with
              | some e =>
                simp only [hq] at hm
                rcases List.mem_cons.mp hm with rfl | hm
                · exact ⟨by simp, quantifiers_facts e (List.mem_of_find?_eq_some hq)⟩
                · simp at hm
              | none =>
                simp only [hq] at hm
                rcases List.mem_cons.mp hm with rfl | hm
                · exact ⟨by simp, (by decide : ("NStem" : String) ≠ "NPrePre1")⟩
                · simp at hm

/-! The vocabulary lookup. -/

lemma vocabLookup_spec (w : Str) (tg : String) (h : vocabLookup w = some tg) :
    ∃ e ∈ vocabulary, e.1 = w ∧ e.2 = tg := by
  unfold vocabLookup at h
  cases hf : vocabulary.find? (fun e => e.1 == w) with
  | none => rw [hf] at h; exact Option.noConfusion h
  | some e =>
    rw [hf] at h
    simp only [Option.map_some'] at h
    exact ⟨e, List.mem_of_find?_eq_some hf,
      by simpa using List.find?_some hf, Option.some.inj h⟩

/-! Properties of every morpheme returned by `analyzeWord`. -/

lemma protoPropTag_facts : ∀ s ∈ objectProtoKeys, protoPropTag s ≠ "NPrePre1" := by
  decide

lemma vocabTruthy_of_lookup {w : Str} {tg : String}
    (hv : vocabLookup w = some tg) : vocabTruthy w = true := by
  unfold vocabTruthy
  unfold vocabLookup at hv
  cases hf : vocabulary.find? (fun e => e.1 == w) with
  | none => rw [hf] at hv; exact Option.noConfusion hv
  | some e => simp [hf]

lemma protoKey_of_truthy_not_lookup {w : Str}
    (ht : vocabTruthy w = true) (hv : vocabLookup w = none) :
    w ∈ objectProtoKeys := by
  unfold vocabTruthy at ht
  have hfind : (vocabulary.find? (fun e => e.1 == w)).isSome = false := by
    unfold vocabLookup at hv
    cases hf : vocabulary.find? (fun e => e.1 == w) with
    | none => rfl
    | some e => rw [hf] at hv; exact Option.noConfusion hv
  rw [hfind] at ht
  simpa using ht

lemma analyzeWord_inv : ∀ (w : Str) (m : Morpheme), m ∈ analyzeWord w →
    m.tag ≠ "NPrePre1" ∧ (w ≠ [] → m.morph ≠ []) := by
  intro w m hm
  simp only [analyzeWord] at hm
  by_cases hp : isPunct w = true
  · rw [if_pos hp] at hm
    simp only [List.mem_singleton] at hm
    subst hm
    exact ⟨(by decide : ("Punc" : String) ≠ "NPrePre1"), fun hw => hw⟩
  · rw [if_neg hp] at hm
    by_cases ht : vocabTruthy (lowerStr w) = true
    · rw [if_pos ht] at hm
      simp only [List.mem_singleton] at hm
      subst hm
      refine ⟨?_, fun hw => by simpa [lowerStr] using hw⟩
      cases hv : vocabLookup (lowerStr w) with
      | some tg =>
        simp only [hv]
        obtain ⟨e, he, -, rfl⟩ := vocabLookup_spec _ _ hv
        exact vocabulary_facts e he
      | none =>
        simp only [hv]
        exact protoPropTag_facts _ (protoKey_of_truthy_not_lookup ht hv)
    · rw [if_neg ht] at hm
      by_cases hu : (startsWithUpper w = true) ∧ 2 < w.length
      · rw [if_pos hu] at hm
        simp only [List.mem_singleton] at hm
        subst hm
        exact ⟨(by decide : ("ProperName" : String) ≠ "NPrePre1"), fun hw => hw⟩
      · rw [if_neg hu] at hm
        by_cases he : ((analyzeLoop (lowerStr w)).1).isEmpty = true
        · rw [if_pos he] at hm
          simp only [List.mem_singleton] at hm
          subst hm
          exact ⟨(by decide : ("Unknown" : String) ≠ "NPrePre1"), fun hw => hw⟩
        · rw [if_neg he] at hm
          have := analyzeLoopFuel_inv _ _ m hm
          exact ⟨this.2, fun _ => this.1⟩

/-! ASCII case facts used for the vocabulary path. -/

lemma char_toNat_ofNat_valid (n : Nat) (h : n.isValidChar) :
    (Char.ofNat n).toNat = n := by
  rw [Char.ofNat, dif_pos h]
  rfl

lemma toLower_ne_upper (c u : Char) (h1 : 65 ≤ u.toNat) (h2 : u.toNat ≤ 90) :
    Char.toLower c ≠ u := by
  by_cases hcond : c.toNat ≥ 65 ∧ c.toNat ≤ 90
  · simp only [Char.toLower, if_pos hcond]
    intro heq
    have hval : (Char.ofNat (c.toNat + 32)).toNat = c.toNat + 32 :=
      char_toNat_ofNat_valid _ (Or.inl (by omega))
    have h3 := congrArg Char.toNat heq
    rw [hval] at h3
    omega
  · simp only [Char.toLower, if_neg hcond]
    intro heq
    subst heq
    exact hcond ⟨h1, h2⟩

/-! Tokenization is unchanged by trimming, and a trimmed line is blank
exactly when the line is empty or whitespace-only. -/

lemma wordsOfAux_spaces (t : Str) (h : ∀ c ∈ t, isSpaceChar c = true) :
    ∀ acc : Str, wordsOfAux t acc = if acc.isEmpty then [] else [acc.reverse] := by
  induction t with
  | nil => intro acc; rfl
  | cons c rest ih =>
    intro acc
    have hc : isSpaceChar c = true := h c (List.mem_cons_self c rest)
    rw [wordsOfAux, if_pos hc, ih (fun x hx => h x (List.mem_cons_of_mem _ hx)) []]
    simp

lemma wordsOfAux_append_spaces (t : Str) (ht : ∀ c ∈ t, isSpaceChar c = true) :
    ∀ (s acc : Str), wordsOfAux (s ++ t) acc = wordsOfAux s acc := by
  intro s
  induction s with
  | nil =>
    intro acc
    rw [List.nil_append, wordsOfAux_spaces t ht acc]
    rfl
  | cons a s' ih =>
    intro acc
    rw [List.cons_append, wordsOfAux]
    by_cases ha : isSpaceChar a = true
    · rw [if_pos ha, ih [], wordsOfAux, if_pos ha]
    · rw [if_neg ha, ih (a :: acc), wordsOfAux, if_neg ha]

lemma wordsOf_cons_space {c : Char} (rest : Str) (hc : isSpaceChar c = true) :
    wordsOf (c :: rest) = wordsOf rest := by
  unfold wordsOf
  rw [wordsOfAux, if_pos hc]
  simp

lemma wordsOf_dropWhile (s : Str) : wordsOf (s.dropWhile isSpaceChar) = wordsOf s := by
  induction s with
  | nil => rfl
  | cons c rest ih =>
    by_cases hc : isSpaceChar c = true
    · rw [List.dropWhile_cons_of_pos hc, ih, wordsOf_cons_space rest hc]
    · rw [List.dropWhile_cons_of_neg (by simp [hc])]

lemma wordsOf_trim (s : Str) : wordsOf (trimStr s) = wordsOf s := by
  have key : s.dropWhile isSpaceChar
      = trimStr s ++ ((s.dropWhile isSpaceChar).reverse.takeWhile isSpaceChar).reverse := by
    conv_lhs => rw [← List.reverse_reverse (s.dropWhile isSpaceChar),
      ← List.takeWhile_append_dropWhile (p := isSpaceChar)
        (l := (s.dropWhile isSpaceChar).reverse)]
    rw [List.reverse_append]
    rfl
  have spaces : ∀ c ∈ ((s.dropWhile isSpaceChar).reverse.takeWhile isSpaceChar).reverse,
      isSpaceChar c = true :=
    fun c hc => List.mem_takeWhile_imp (List.mem_reverse.mp hc)
  calc wordsOf (trimStr s)
      = wordsOf (trimStr s
          ++ ((s.dropWhile isSpaceChar).reverse.takeWhile isSpaceChar).reverse) :=
        (wordsOfAux_append_spaces _ spaces _ []).symm
    _ = wordsOf (s.dropWhile isSpaceChar) := by rw [← key]
    _ = wordsOf s := wordsOf_dropWhile s

lemma trimStr_isEmpty (l : Str) : (trimStr l).isEmpty = l.all isSpaceChar := by
  rw [Bool.eq_iff_iff, List.isEmpty_iff, List.all_eq_true]
  unfold trimStr
  simp only [List.reverse_eq_nil_iff, List.dropWhile_eq_nil_iff, List.mem_reverse]
  constructor
  · intro h x hx
    have hsplit : x ∈ l.takeWhile isSpaceChar ∨ x ∈ l.dropWhile isSpaceChar := by
      rw [← List.mem_append, List.takeWhile_append_dropWhile]
      exact hx
    rcases hsplit with h' | h'
    · exact List.mem_takeWhile_imp h'
    · exact h x h'
  · intro h x hx
    exact h x ((List.dropWhile_sublist isSpaceChar).mem hx)

/-! The numbered rendering of the kept lines. -/

lemma enumFrom_render (lines : List Str) : ∀ k : Nat,
    (lines.enumFrom k).map (fun p =>
        ("<LINE ".data ++ (toString (p.1 + 1)).data ++ ">".data)
          ++ List.intercalate [' ']
              ((wordsOf (trimStr p.2)).map (fun w => formatMorphAnalysis w (analyzeWord w))))
      = numberLines (k + 1) lines := by
  induction lines with
  | nil => intro k; rfl
  | cons line rest ih =>
    intro k
    simp only [List.enumFrom, List.map_cons]
    rw [ih (k + 1), numberLines]
    unfold renderLine
    rw [wordsOf_trim]

/-! A sequence of engine calls is the per-word map of `analyzeWord`. -/

lemma callResults_eq_map : ∀ ws : List Str, callResults ws = ws.map analyzeWord := by
  intro ws
  induction ws with
  | nil => rfl
  | cons w rest ih => rw [callResults, ih, List.map_cons]

/-- The effective noun-class table: the later `umu` assignment (class 3)
holds the key's single slot, in the position of its first declaration. -/
lemma nounPrefixes_eq : nounPrefixes =
    [ ("umu".data, 3, "NPrePre3"), ("aba".data, 2, "NPrePre2"),
      ("imi".data, 4, "NPrePre4"), ("ili".data, 5, "NPrePre5"),
      ("ama".data, 6, "NPrePre6"), ("isi".data, 7, "NPrePre7"),
      ("izi".data, 8, "NPrePre8"), ("in".data, 9, "NPrePre9"),
      ("izin".data, 10, "NPrePre10"), ("ulu".data, 11, "NPrePre11"),
      ("ubu".data, 14, "NPrePre14"), ("uku".data, 15, "NPrePre15") ] := by
  decide

/-- C5: `analyzeWord` is a total function over strings: every input yields a
morpheme sequence of length at least 1, and the empty string yields exactly
the single `Unknown` morpheme with empty surface string. -/
theorem claim_C5 :
    (∀ w : Str, 1 ≤ (analyzeWord w).length)
    ∧ analyzeWord [] = [⟨[], "Unknown"⟩] := by
  constructor
  · intro w
    simp only [analyzeWord]
    by_cases hp : isPunct w = true
    · rw [if_pos hp]; simp
    · rw [if_neg hp]
      by_cases ht : vocabTruthy (lowerStr w) = true
      · rw [if_pos ht]; simp
      · rw [if_neg ht]
        by_cases hu : (startsWithUpper w = true) ∧ 2 < w.length
        · rw [if_pos hu]; simp
        · rw [if_neg hu]
          by_cases he : ((analyzeLoop (lowerStr w)).1).isEmpty = true
          · rw [if_pos he]; simp
          · rw [if_neg he]
            have hne : (analyzeLoop (lowerStr w)).1 ≠ [] := by simpa using he
            have := List.length_pos.mpr hne
            omega
  · decide

/-- C6: the stripping loop always terminates: on the lowercased word it
performs at most `len(lowercase(w))` iterations, and lowercasing preserves
the word length. -/
theorem claim_C6 : ∀ w : Str,
    (analyzeLoop (lowerStr w)).2 ≤ (lowerStr w).length
    ∧ (lowerStr w).length = w.length := by
  intro w
  exact ⟨analyzeLoopFuel_count_le _ _ le_rfl, by simp [lowerStr]⟩

/-- C8: determinism: in any sequence of calls to `analyzeWord` against the
shared rule tables, two calls on the same word return identical morpheme
sequences. -/
theorem claim_C8 : ∀ (ws : List Str) (i j : Nat) (w : Str),
    ws[i]? = some w → ws[j]? = some w →
    (callResults ws)[i]? = some (analyzeWord w)
      ∧ (callResults ws)[j]? = some (analyzeWord w) := by
  intro ws i j w hi hj
  rw [callResults_eq_map]
  constructor
  · rw [List.getElem?_map, hi]; rfl
  · rw [List.getElem?_map, hj]; rfl

/-- Witness for C8: a concrete call sequence with a repeated word. -/
theorem claim_C8_witness :
    (["aba".data, "u".data, "aba".data] : List Str)[0]? = some "aba".data
    ∧ (["aba".data, "u".data, "aba".data] : List Str)[2]? = some "aba".data
    ∧ (callResults ["aba".data, "u".data, "aba".data])[0]?
        = some (analyzeWord "aba".data)
    ∧ (callResults ["aba".data, "u".data, "aba".data])[2]?
        = some (analyzeWord "aba".data) := by
  refine ⟨by decide, by decide, ?_, ?_⟩
  · exact (claim_C8 _ 0 2 _ (by decide) (by decide)).1
  · exact (claim_C8 _ 0 2 _ (by decide) (by decide)).2

/-- C9: for every non-empty word, every morpheme returned by `analyzeWord`
has a non-empty surface string. -/
theorem claim_C9 : ∀ (w : Str), w ≠ [] → ∀ m ∈ analyzeWord w, m.morph ≠ [] :=
  fun w hw m hm => (analyzeWord_inv w m hm).2 hw

/-- Witness for C9 at the concrete word `a`. -/
theorem claim_C9_witness :
    ("a".data ≠ ([] : Str))
    ∧ (⟨"a".data, "NStem"⟩ : Morpheme) ∈ analyzeWord "a".data
    ∧ (⟨"a".data, "NStem"⟩ : Morpheme).morph ≠ [] :=
  ⟨by decide, by decide, claim_C9 "a".data (by decide) _ (by decide)⟩

/-- C2, counterexample to the claim as stated: `constructor` is not a
declared vocabulary key, yet the bracket read `this.vocabulary[remaining]`
is truthy through the prototype chain, so the vocabulary check does produce
a morpheme for this non-declared key; on the capitalized `Constructor` the
fast path pre-empts the proper-name rule, and the returned surface string
is the lowercased word rather than the raw word the claim would predict.
`__proto__` is a second such key. -/
theorem claim_C2_counterexample :
    "constructor".data ∉ vocabulary.map Prod.fst
    ∧ vocabTruthy "constructor".data = true
    ∧ analyzeWord "constructor".data
        = [⟨"constructor".data, protoPropTag "constructor".data⟩]
    ∧ analyzeWord "Constructor".data
        = [⟨"constructor".data, protoPropTag "constructor".data⟩]
    ∧ startsWithUpper "Constructor".data = true
    ∧ 2 < "Constructor".data.length
    ∧ (analyzeWord "Constructor".data).map Morpheme.morph ≠ ["Constructor".data]
    ∧ "__proto__".data ∉ vocabulary.map Prod.fst
    ∧ vocabTruthy "__proto__".data = true := by
  decide

/-- C2, as amended: the vocabulary fast path fires exactly when the
lowercased word equals a stored key or names a truthy inherited
`Object.prototype` member (`constructor`, `__proto__`, ...); keys are
stored exactly as declared and a hit key never contains an ASCII capital,
so the two mixed-case keys are unreachable and their lowercased forms miss;
on an own-key hit `analyzeWord` returns just that declared morpheme, and on
an inherited hit it returns the lowercased word with the inherited value. -/
theorem claim_C2 :
    vocabulary = vocabularyDecl
    ∧ (∀ w : Str, (vocabLookup (lowerStr w)).isSome
        ↔ ∃ e ∈ vocabulary, e.1 = lowerStr w)
    ∧ (∀ w : Str, vocabTruthy (lowerStr w) = true
        ↔ (∃ e ∈ vocabulary, e.1 = lowerStr w) ∨ lowerStr w ∈ objectProtoKeys)
    ∧ (∀ (w : Str) (e : Str × String),
        vocabulary.find? (fun en => en.1 == lowerStr w) = some e →
        ∀ c ∈ e.1, ¬(65 ≤ c.toNat ∧ c.toNat ≤ 90))
    ∧ vocabTruthy (lowerStr "Afrika".data) = false
    ∧ vocabTruthy (lowerStr "Ningizimu".data) = false
    ∧ (∀ (w : Str) (tg : String), ¬isPunct w = true →
        vocabLookup (lowerStr w) = some tg →
        analyzeWord w = [⟨lowerStr w, tg⟩])
    ∧ (∀ w : Str, ¬isPunct w = true → vocabTruthy (lowerStr w) = true →
        vocabLookup (lowerStr w) = none →
        analyzeWord w = [⟨lowerStr w, protoPropTag (lowerStr w)⟩]) := by
  refine ⟨by decide, ?_, ?_, ?_, by decide, by decide, ?_, ?_⟩
  · intro w
    unfold vocabLookup
    simp [List.find?_isSome]
  · intro w
    unfold vocabTruthy
    simp [List.find?_isSome]
  · intro w e hf c hc hup
    have he1 : e.1 = lowerStr w := by simpa using List.find?_some hf
    rw [he1] at hc
    obtain ⟨c', -, rfl⟩ := List.mem_map.mp hc
    exact toLower_ne_upper c' _ hup.1 hup.2 rfl
  · intro w tg hp hv
    simp only [analyzeWord, if_neg hp, if_pos (vocabTruthy_of_lookup hv), hv]
  · intro w hp ht hv
    simp only [analyzeWord, if_neg hp, if_pos ht, hv]

/-- Witness for C2 at the concrete vocabulary key `jongo`. -/
theorem claim_C2_witness :
    ¬isPunct "jongo".data = true
    ∧ vocabLookup (lowerStr "jongo".data) = some "NStem"
    ∧ analyzeWord "jongo".data = [⟨lowerStr "jongo".data, "NStem"⟩] :=
  ⟨by decide, by decide, claim_C2.2.2.2.2.2.2.1 _ _ (by decide) (by decide)⟩

/-- C3: when the noun-class rule matches an entry, the emitted morphemes are
the first character of the pattern (plus, for patterns longer than one
character, the synthesized basic form), while the cursor advances by the
full pattern length. -/
theorem claim_C3 : ∀ (rem : Str) (e : Str × Nat × String),
    findNounPre rem = some e →
    analyzeLoop rem = (nounPreEmit e ++ (analyzeLoop (rem.drop e.1.length)).1,
                       (analyzeLoop (rem.drop e.1.length)).2 + 1)
    ∧ (nounPreEmit e).head? = some ⟨e.1.take 1, e.2.2⟩
    ∧ (e.1.length ≤ 1 → nounPreEmit e = [⟨e.1.take 1, e.2.2⟩])
    ∧ (1 < e.1.length → ∃ bp, getNounBasicPrefix e.2.1 = some bp ∧
        nounPreEmit e = [⟨e.1.take 1, e.2.2⟩, ⟨bp, "BPre" ++ toString e.2.1⟩]) := by
  intro rem e h
  refine ⟨analyzeLoop_noun h, rfl, ?_, ?_⟩
  · intro hle
    rw [nounPreEmit, if_neg (by omega)]
  · intro hlt
    have hsome := (nounPrefixes_facts e (findNounPre_mem h)).2.2.2
    obtain ⟨bp, hbp⟩ := Option.isSome_iff_exists.mp hsome
    exact ⟨bp, hbp, by rw [nounPreEmit, if_pos hlt, hbp]⟩

/-- Witness for C3 at the concrete cursor `umuntu`. -/
theorem claim_C3_witness :
    findNounPre "umuntu".data = some ("umu".data, 3, "NPrePre3")
    ∧ analyzeLoop "umuntu".data
        = (nounPreEmit ("umu".data, 3, "NPrePre3")
             ++ (analyzeLoop ("umuntu".data.drop ("umu".data.length))).1,
           (analyzeLoop ("umuntu".data.drop ("umu".data.length))).2 + 1) :=
  ⟨by decide, (claim_C3 "umuntu".data ("umu".data, 3, "NPrePre3") (by decide)).1⟩

/-- C10: the basic-prefix lookup is defined for all 13 declared noun classes,
so whenever a noun-class pattern longer than one character matches, the
guard succeeds and exactly two morphemes are emitted before the rest of the
analysis; the skip branch is unreachable. -/
theorem claim_C10 :
    (∀ c ∈ ([1, 2, 3, 4, 5, 6, 7, 8, 9, 10, 11, 14, 15] : List Nat),
        (getNounBasicPrefix c).isSome = true)
    ∧ (∀ (rem : Str) (e : Str × Nat × String), findNounPre rem = some e →
        1 < e.1.length →
        ∃ bp, getNounBasicPrefix e.2.1 = some bp
          ∧ nounPreEmit e = [⟨e.1.take 1, e.2.2⟩, ⟨bp, "BPre" ++ toString e.2.1⟩]
          ∧ (nounPreEmit e).length = 2
          ∧ (analyzeLoop rem).1
              = ⟨e.1.take 1, e.2.2⟩ :: ⟨bp, "BPre" ++ toString e.2.1⟩
                  :: (analyzeLoop (rem.drop e.1.length)).1) := by
  constructor
  · decide
  · intro rem e h hlt
    have hsome := (nounPrefixes_facts e (findNounPre_mem h)).2.2.2
    obtain ⟨bp, hbp⟩ := Option.isSome_iff_exists.mp hsome
    have hemit : nounPreEmit e
        = [⟨e.1.take 1, e.2.2⟩, ⟨bp, "BPre" ++ toString e.2.1⟩] := by
      rw [nounPreEmit, if_pos hlt, hbp]
    refine ⟨bp, hbp, hemit, by rw [hemit]; rfl, ?_⟩
    rw [analyzeLoop_noun h, hemit]
    rfl

/-- Witness for C10 at noun class 9 and the concrete cursor `umuntu`. -/
theorem claim_C10_witness :
    (9 ∈ ([1, 2, 3, 4, 5, 6, 7, 8, 9, 10, 11, 14, 15] : List Nat)
      ∧ (getNounBasicPrefix 9).isSome = true)
    ∧ (∃ bp, getNounBasicPrefix 3 = some bp
        ∧ nounPreEmit ("umu".data, 3, "NPrePre3")
            = [⟨"umu".data.take 1, "NPrePre3"⟩, ⟨bp, "BPre" ++ toString 3⟩]
        ∧ (nounPreEmit ("umu".data, 3, "NPrePre3")).length = 2
        ∧ (analyzeLoop "umuntu".data).1
            = ⟨"umu".data.take 1, "NPrePre3"⟩ :: ⟨bp, "BPre" ++ toString 3⟩
                :: (analyzeLoop ("umuntu".data.drop ("umu".data.length))).1) :=
  ⟨⟨by decide, claim_C10.1 9 (by decide)⟩,
    claim_C10.2 "umuntu".data ("umu".data, 3, "NPrePre3") (by decide) (by decide)⟩

/-- C4: the noun-prefix table declares the pattern text `umu` twice (class 1
then class 3); only the class-3 entry survives in the effective table, every
stripped cursor beginning `umu` emits `u`/`NPrePre3` then `mu`/`BPre3`, and
no call of `analyzeWord` ever emits the class-1 tag. -/
theorem claim_C4 :
    ("umu".data, 1, "NPrePre1") ∈ nounPrefixesDecl
    ∧ ("umu".data, 3, "NPrePre3") ∈ nounPrefixesDecl
    ∧ ("umu".data, 1, "NPrePre1") ∉ nounPrefixes
    ∧ (∀ rest : Str, (analyzeLoop ('u' :: 'm' :: 'u' :: rest)).1
        = ⟨['u'], "NPrePre3"⟩ :: ⟨['m', 'u'], "BPre3"⟩ :: (analyzeLoop rest).1)
    ∧ (∀ (w : Str), ∀ m ∈ analyzeWord w, m.tag ≠ "NPrePre1") := by
  refine ⟨by decide, by decide, by decide, ?_,
    fun w m hm => (analyzeWord_inv w m hm).1⟩
  intro rest
  have hfind : findNounPre ('u' :: 'm' :: 'u' :: rest)
      = some ("umu".data, 3, "NPrePre3") := by
    unfold findNounPre
    rw [nounPrefixes_eq]
    apply List.find?_cons_of_pos
    show (['u', 'm', 'u'].isPrefixOf ('u' :: 'm' :: 'u' :: rest)) = true
    simp [List.isPrefixOf]
  rw [analyzeLoop_noun hfind]
  rfl

/-- Witness for C4 at the concrete word `aba` and cursor `umuntu`. -/
theorem claim_C4_witness :
    (⟨['a'], "NPrePre2"⟩ : Morpheme) ∈ analyzeWord "aba".data
    ∧ (⟨['a'], "NPrePre2"⟩ : Morpheme).tag ≠ "NPrePre1"
    ∧ (analyzeLoop ('u' :: 'm' :: 'u' :: "ntu".data)).1
        = ⟨['u'], "NPrePre3"⟩ :: ⟨['m', 'u'], "BPre3"⟩
            :: (analyzeLoop "ntu".data).1 := by
  refine ⟨by decide, ?_, ?_⟩
  · exact claim_C4.2.2.2.2 "aba".data _ (by decide)
  · exact claim_C4.2.2.2.1 "ntu".data

/-- C1, counterexample to the claim as stated (an existential over
occurrences): the word `anan` reaches rule category 3 and contains the
declared extension `an` at index 2, strictly greater than 0, yet the engine
commits to no extension at all — the whole cursor is emitted as one `NStem`
morpheme — because the code tests `indexOf`, the first occurrence, which is
0 for `an` here.  On `ananis`, where `an` again occurs at index 2, the
engine commits to the later-declared `is` at index 4 instead of `an`. -/
theorem claim_C1_counterexample :
    findNounPre "anan".data = none
    ∧ findCommonMorph "anan".data = none
    ∧ ("an".data, "RecExt") ∈ verbExtensions
    ∧ "an".data.isPrefixOf ("anan".data.drop 2) = true
    ∧ findVerbExt "anan".data verbExtensions = none
    ∧ analyzeWord "anan".data = [⟨"anan".data, "NStem"⟩]
    ∧ "an".data.isPrefixOf ("ananis".data.drop 2) = true
    ∧ findVerbExt "ananis".data verbExtensions = some (4, "is".data, "CausExt") := by
  decide

/-- C1, as amended: the engine tests each extension pattern's first
occurrence (JavaScript `indexOf`).  At rule category 3 (no noun-class and no
common-morpheme match) it commits to the first declared verb extension whose
first occurrence index in the cursor is strictly positive, emits the cut
before that index as `VRoot` and then the extension, and resumes after the
occurrence; a pattern whose first occurrence sits at index 0 is skipped even
when it also occurs later. -/
theorem claim_C1 :
    (∀ rem : Str,
        (∃ e ∈ verbExtensions, ∃ j, firstIndexOf e.1 rem = some j ∧ 0 < j) →
        (findVerbExt rem verbExtensions).isSome = true)
    ∧ (∀ (rem : Str) (i : Nat) (ext : Str) (tg : String),
        findVerbExt rem verbExtensions = some (i, ext, tg) →
        findNounPre rem = none → findCommonMorph rem = none →
        (∃ pre suf, verbExtensions = pre ++ (ext, tg) :: suf
            ∧ ∀ e ∈ pre, ∀ j, firstIndexOf e.1 rem = some j → j = 0)
        ∧ firstIndexOf ext rem = some i ∧ 0 < i
        ∧ analyzeLoop rem
            = (⟨rem.take i, "VRoot"⟩ :: ⟨ext, tg⟩ ::
                 (analyzeLoop (rem.drop (i + ext.length))).1,
               (analyzeLoop (rem.drop (i + ext.length))).2 + 1)) := by
  constructor
  · rintro rem ⟨e, he, j, hj, hpos⟩
    cases hv : findVerbExt rem verbExtensions with
    | some v => rfl
    | none => exact absurd (findVerbExt_total _ _ hv e he j hj) (by omega)
  · intro rem i ext tg hv hn hc
    obtain ⟨pre, suf, h1, h2, h3, h4⟩ := findVerbExt_spec _ _ _ _ _ hv
    exact ⟨⟨pre, suf, h1, h2⟩, h3, h4, analyzeLoop_verbext hn hc hv⟩

/-- Witness for C1 at the concrete cursor `bonis` (extension `is`, index 3). -/
theorem claim_C1_witness :
    findVerbExt "bonis".data verbExtensions = some (3, "is".data, "CausExt")
    ∧ findNounPre "bonis".data = none
    ∧ findCommonMorph "bonis".data = none
    ∧ firstIndexOf "is".data "bonis".data = some 3
    ∧ analyzeLoop "bonis".data
        = (⟨"bonis".data.take 3, "VRoot"⟩ :: ⟨"is".data, "CausExt"⟩ ::
             (analyzeLoop ("bonis".data.drop (3 + "is".data.length))).1,
           (analyzeLoop ("bonis".data.drop (3 + "is".data.length))).2 + 1) := by
  have h := claim_C1.2 "bonis".data 3 "is".data "CausExt"
    (by decide) (by decide) (by decide)
  exact ⟨by decide, by decide, by decide, h.2.1, h.2.2.2⟩

/-- C7: `analyzeText` realizes the LineAnalyzer and ResultFormatter contract:
it coincides with the spec-side rendering (newline split, blank lines
discarded, kept lines renumbered consecutively from 1, whitespace-run word
splitting, `morph[TAG]` segments joined by `-`, `<LINE n>` prefixes with no
space, newline joining), and the concrete example yields exactly the two
blocks `<LINE 1>` and `<LINE 2>`. -/
theorem claim_C7 :
    (∀ text : Str, analyzeText text = analyzeTextSpec text)
    ∧ analyzeText "jongo.\n\nAfrika".data
        = "<LINE 1>jongo.[NStem]\n<LINE 2>Afrika[ProperName]".data := by
  constructor
  · intro text
    simp only [analyzeText, analyzeTextSpec]
    have hf : (splitOnChar '\x0a' text).filter (fun line => !(trimStr line).isEmpty)
        = (splitOnChar '\x0a' text).filter (fun line => !(line.all isSpaceChar)) :=
      List.filter_congr (fun x _ => by rw [trimStr_isEmpty])
    rw [hf, List.enum_eq_enumFrom, enumFrom_render]
  · decide

end ZuluMorph
